import Mathlib

/-!
# Verification of the ray-tracing core (RayTracingWeekendRust)

A shallow embedding of the rendering core of the repository:
`vec3.rs` (vector algebra), `ray.rs` (rays), `math_util.rs` (numeric
helpers), and `main.rs` (materials, hit records, spheres, hittable
lists, camera rays, the path integrator and colour output).

`f64` values are modelled as exact real numbers; every random draw the
source takes from its global generator is threaded explicitly as a
parameter, so all definitions are deterministic functions of their
inputs.  Trait objects (`dyn Hittable`) are modelled as plain functions
of the trait's single method signature, and the `Material` trait as a
tagged variant with a dispatching `scatter`, following the source's
three implementations.
-/

noncomputable section

namespace RTW

/-- Source: `Vec3` from `vec3.rs`: three `f64` components, used interchangeably
as point, direction and colour. -/
@[ext]
structure Vec3 where
  x : ℝ
  y : ℝ
  z : ℝ

/-- Source: `impl ops::Add<Vec3> for Vec3`: componentwise addition. -/
instance : Add Vec3 :=
  ⟨fun a b => ⟨a.x + b.x, a.y + b.y, a.z + b.z⟩⟩

/-- Source: `impl ops::Sub<Vec3> for Vec3`: componentwise subtraction. -/
instance : Sub Vec3 :=
  ⟨fun a b => ⟨a.x - b.x, a.y - b.y, a.z - b.z⟩⟩

/-- Source: `impl ops::Neg for Vec3`: componentwise negation. -/
instance : Neg Vec3 :=
  ⟨fun a => ⟨-a.x, -a.y, -a.z⟩⟩

/-- Source: `impl ops::Mul<f64> for Vec3`: scaling on the right. -/
instance : HMul Vec3 ℝ Vec3 :=
  ⟨fun a r => ⟨a.x * r, a.y * r, a.z * r⟩⟩

/-- Source: `impl ops::Mul<Vec3> for f64`: scaling on the left. -/
instance : HMul ℝ Vec3 Vec3 :=
  ⟨fun r a => ⟨r * a.x, r * a.y, r * a.z⟩⟩

/-- Source: `impl ops::Mul<Vec3> for Vec3`: componentwise (Hadamard) product. -/
instance : Mul Vec3 :=
  ⟨fun a b => ⟨a.x * b.x, a.y * b.y, a.z * b.z⟩⟩

/-- Source: `impl ops::Div<f64> for Vec3`: division by a scalar. -/
instance : HDiv Vec3 ℝ Vec3 :=
  ⟨fun a r => ⟨a.x / r, a.y / r, a.z / r⟩⟩

theorem Vec3.add_def (a b : Vec3) : a + b = ⟨a.x + b.x, a.y + b.y, a.z + b.z⟩ := rfl

theorem Vec3.sub_def (a b : Vec3) : a - b = ⟨a.x - b.x, a.y - b.y, a.z - b.z⟩ := rfl

theorem Vec3.neg_def (a : Vec3) : -a = ⟨-a.x, -a.y, -a.z⟩ := rfl

theorem Vec3.mul_real_def (a : Vec3) (r : ℝ) : a * r = ⟨a.x * r, a.y * r, a.z * r⟩ := rfl

theorem Vec3.real_mul_def (r : ℝ) (a : Vec3) : r * a = ⟨r * a.x, r * a.y, r * a.z⟩ := rfl

theorem Vec3.mul_def (a b : Vec3) : a * b = ⟨a.x * b.x, a.y * b.y, a.z * b.z⟩ := rfl

theorem Vec3.div_def (a : Vec3) (r : ℝ) : a / r = ⟨a.x / r, a.y / r, a.z / r⟩ := rfl

/-- Source: `pub fn dot(lhs: Vec3, rhs: Vec3) -> f64` from `vec3.rs`. -/
def dot (lhs rhs : Vec3) : ℝ :=
  lhs.x * rhs.x + lhs.y * rhs.y + lhs.z * rhs.z

/-- Source: `pub fn cross(lhs: Vec3, rhs: Vec3) -> Vec3` from `vec3.rs`. -/
def cross (lhs rhs : Vec3) : Vec3 :=
  ⟨lhs.y * rhs.z - lhs.z * rhs.y,
   lhs.z * rhs.x - lhs.x * rhs.z,
   lhs.x * rhs.y - lhs.y * rhs.x⟩

/-- Source: `pub fn reflect(v: Vec3, normal: Vec3) -> Vec3` from `vec3.rs`:
`v - 2.0 * dot(v, normal) * normal`. -/
def reflect (v normal : Vec3) : Vec3 :=
  v - (2 * dot v normal) * normal

/-- Source: `Vec3::length_squared` from `vec3.rs`. -/
def Vec3.length_squared (v : Vec3) : ℝ :=
  v.x * v.x + v.y * v.y + v.z * v.z

/-- Source: `Vec3::length` from `vec3.rs`: `f64::sqrt(self.length_squared())`. -/
def Vec3.length (v : Vec3) : ℝ :=
  Real.sqrt v.length_squared

/-- Source: `Vec3::get_normalized` from `vec3.rs`: `self.clone() / self.length()`. -/
def Vec3.get_normalized (v : Vec3) : Vec3 :=
  v / v.length

/-- Source: `Ray` from `ray.rs`: origin plus direction. -/
structure Ray where
  origin : Vec3
  dir : Vec3

/-- Source: `Ray::at` from `ray.rs`: `self.origin + t * self.dir`. -/
def Ray.at (self : Ray) (t : ℝ) : Vec3 :=
  self.origin + t * self.dir

/-- Source: `pub fn infinite() -> f64` from `math_util.rs`.  Note that the
source returns `f64::MAX`, the largest finite double
`(2^53 - 1) * 2^971`, not the IEEE infinity. -/
def infinite : ℝ :=
  (2 ^ 53 - 1) * 2 ^ 971

/-- Source: `pub fn schlick(cosine: f64, ref_idx: f64) -> f64` from
`math_util.rs`. -/
def schlick (cosine ref_idx : ℝ) : ℝ :=
  let r0 := ((1 - ref_idx) / (1 + ref_idx)) ^ 2
  r0 + (1 - r0) * (1 - cosine) ^ 5

/-- The per-bounce random draws the source takes from its global
generator, threaded explicitly: `random_unit_vec3()` (Lambertian),
`random_vec3_in_unit_sphere()` (Metal fuzz) and `f64::random()`
(Dielectric Schlick test). -/
structure RandSample where
  unitVec : Vec3
  sphereVec : Vec3
  uniform : ℝ

/-- The `Material` trait of `main.rs`, as the tagged variant over its
three implementations `Lambertian`, `Metal` and `Dielectric`. -/
inductive Material where
  | lambertian (albedo : Vec3)
  | metal (albedo : Vec3) (fuzz : ℝ)
  | dielectric (ref_idx : ℝ)

/-- Source: `HitRecord` from `main.rs`. -/
structure HitRecord where
  p : Vec3
  normal : Vec3
  t : ℝ
  front_face : Bool
  material : Material

/-- Source: `HitRecord::set_face_normal` from `main.rs`: orient the stored
normal against the incoming ray. -/
def HitRecord.set_face_normal (rec : HitRecord) (ray : Ray) (outward_normal : Vec3) :
    HitRecord :=
  let ff : Bool := if dot ray.dir outward_normal < 0 then true else false
  { rec with
    front_face := ff
    normal := if ff then outward_normal else -outward_normal }

/-- Source: `impl Material for Lambertian` from `main.rs`, with the
`random_unit_vec3()` draw passed in through `rnd`. -/
def Lambertian.scatter (albedo : Vec3) (rnd : RandSample) (r_in : Ray) (rec : HitRecord) :
    Option (Vec3 × Ray) :=
  let scatter_direction := rec.normal + rnd.unitVec
  some (albedo, ⟨rec.p, scatter_direction⟩)

/-- Source: `impl Material for Metal` from `main.rs`, with the
`random_vec3_in_unit_sphere()` draw passed in through `rnd`. -/
def Metal.scatter (albedo : Vec3) (fuzz : ℝ) (rnd : RandSample) (r_in : Ray)
    (rec : HitRecord) : Option (Vec3 × Ray) :=
  let reflected := reflect r_in.dir.get_normalized rec.normal
  let scattered : Ray := ⟨rec.p, reflected + fuzz * rnd.sphereVec⟩
  let attenuation := albedo
  if dot scattered.dir rec.normal > 0 then
    some (attenuation, scattered)
  else
    none

/-- The refraction ratio `etai_over_etat` computed by
`Dielectric::scatter` in `main.rs`. -/
def dielectricRatio (ref_idx : ℝ) (rec : HitRecord) : ℝ :=
  if rec.front_face then 1 / ref_idx else ref_idx

/-- Source: `cos_theta` as computed by `Dielectric::scatter` in `main.rs`:
`f64::min(dot(-unit_direction, rec.normal), 1.0)`. -/
def dielectricCosTheta (r_in : Ray) (rec : HitRecord) : ℝ :=
  min (dot (-r_in.dir.get_normalized) rec.normal) 1

/-- Source: `sin_theta` as computed by `Dielectric::scatter` in `main.rs`:
`f64::sqrt(1.0 - cos_theta * cos_theta)`. -/
def dielectricSinTheta (r_in : Ray) (rec : HitRecord) : ℝ :=
  Real.sqrt (1 - dielectricCosTheta r_in rec * dielectricCosTheta r_in rec)

/-- Modelled from the spec: the perpendicular component
`r_out_perp = etai_over_etat * (uv + cos_theta * n)` of the refracted
direction (`refract` is called by `Dielectric::scatter` in `main.rs`
but its definition is not part of the sources given; the spec
describes it as Snell's law via perpendicular plus parallel component
decomposition). -/
def refractPerp (uv n : Vec3) (etai_over_etat : ℝ) : Vec3 :=
  etai_over_etat * (uv + min (dot (-uv) n) 1 * n)

/-- The argument handed to the square root inside `refract`:
`1 - |r_out_perp|²`, with no absolute value guarding it. -/
def refractSqrtArg (uv n : Vec3) (etai_over_etat : ℝ) : ℝ :=
  1 - (refractPerp uv n etai_over_etat).length_squared

/-- Modelled from the spec: `refract` — Snell's law as
`r_out_perp + r_out_parallel` with
`r_out_parallel = -sqrt(1 - |r_out_perp|²) * n`. -/
def refract (uv n : Vec3) (etai_over_etat : ℝ) : Vec3 :=
  refractPerp uv n etai_over_etat +
    (-Real.sqrt (refractSqrtArg uv n etai_over_etat)) * n

/-- Source: `impl Material for Dielectric` from `main.rs`, with the
`f64::random()` draw of the Schlick test passed in through `rnd`. -/
def Dielectric.scatter (ref_idx : ℝ) (rnd : RandSample) (r_in : Ray) (rec : HitRecord) :
    Option (Vec3 × Ray) :=
  if dielectricRatio ref_idx rec * dielectricSinTheta r_in rec > 1 then
    some (⟨1, 1, 1⟩, ⟨rec.p, reflect r_in.dir.get_normalized rec.normal⟩)
  else if rnd.uniform < schlick (dielectricCosTheta r_in rec) (dielectricRatio ref_idx rec) then
    some (⟨1, 1, 1⟩, ⟨rec.p, reflect r_in.dir.get_normalized rec.normal⟩)
  else
    some (⟨1, 1, 1⟩,
      ⟨rec.p, refract r_in.dir.get_normalized rec.normal (dielectricRatio ref_idx rec)⟩)

/-- Dynamic dispatch of the `Material` trait's `scatter` over its
three implementations. -/
def Material.scatter : Material → RandSample → Ray → HitRecord → Option (Vec3 × Ray)
  | .lambertian albedo => Lambertian.scatter albedo
  | .metal albedo fuzz => Metal.scatter albedo fuzz
  | .dielectric ref_idx => Dielectric.scatter ref_idx

/-- Source: `Sphere` from `main.rs`. -/
structure Sphere where
  center : Vec3
  radius : ℝ
  material : Material

/-- The `a` coefficient of the sphere intersection quadratic in
`Sphere::hit`: `ray.dir.length_squared()`. -/
def hitA (ray : Ray) : ℝ :=
  ray.dir.length_squared

/-- The `half_b` coefficient of the sphere intersection quadratic in
`Sphere::hit`: `dot(oc, ray.dir)` with `oc = ray.origin - center`. -/
def hitHalfB (s : Sphere) (ray : Ray) : ℝ :=
  dot (ray.origin - s.center) ray.dir

/-- The `c` coefficient of the sphere intersection quadratic in
`Sphere::hit`: `oc.length_squared() - radius * radius`. -/
def hitC (s : Sphere) (ray : Ray) : ℝ :=
  (ray.origin - s.center).length_squared - s.radius * s.radius

/-- The `discriminant` computed by `Sphere::hit`:
`half_b * half_b - a * c`. -/
def hitDiscriminant (s : Sphere) (ray : Ray) : ℝ :=
  hitHalfB s ray * hitHalfB s ray - hitA ray * hitC s ray

/-- The hit record `Sphere::hit` builds once it accepts a root `temp`:
point `ray.at(temp)`, the sphere's material, and the face-oriented
normal from the outward normal `(p - center) / radius`. -/
def sphereRecord (s : Sphere) (ray : Ray) (temp : ℝ) : HitRecord :=
  let p := ray.at temp
  let outward_normal := (p - s.center) / s.radius
  HitRecord.set_face_normal ⟨p, ⟨0, 0, 0⟩, temp, false, s.material⟩ ray outward_normal

/-- Source: `impl Hittable for Sphere` from `main.rs`: if the discriminant is
strictly positive, try the nearer root `(-half_b - sqrt(disc)) / a`
and then the farther root `(-half_b + sqrt(disc)) / a`, accepting the
first that lies strictly inside `(t_min, t_max)`. -/
def Sphere.hit (s : Sphere) (ray : Ray) (t_min t_max : ℝ) : Option HitRecord :=
  if hitDiscriminant s ray > 0 then
    let root := Real.sqrt (hitDiscriminant s ray)
    let temp := (-hitHalfB s ray - root) / hitA ray
    if temp < t_max ∧ temp > t_min then
      some (sphereRecord s ray temp)
    else
      let temp := (-hitHalfB s ray + root) / hitA ray
      if temp < t_max ∧ temp > t_min then
        some (sphereRecord s ray temp)
      else
        none
  else
    none

/-- Source: `impl Hittable for HittableList` from `main.rs`: a linear scan over
the members (each a `dyn Hittable`, modelled as its `hit` function),
keeping the latest accepted record and shrinking the upper bound to its
`t`.  The mutable state `(record/hit_anithing, closest_so_far)` of the
source's `for_each` becomes a fold state
`(Option HitRecord, closest_so_far)`. -/
def HittableList.hit (objects : List (Ray → ℝ → ℝ → Option HitRecord)) (ray : Ray)
    (t_min t_max : ℝ) : Option HitRecord :=
  (objects.foldl
    (fun st object =>
      match object ray t_min st.2 with
      | some object_hit_record => (some object_hit_record, object_hit_record.t)
      | none => st)
    ((none : Option HitRecord), t_max)).1

/-- Source: `Camera` from `main.rs`. -/
structure Camera where
  origin : Vec3
  lower_left_corner : Vec3
  horizontal : Vec3
  vertical : Vec3
  lens_radius : ℝ

/-- Source: `fn get_ray(camera: Camera, s: f64, t: f64) -> Ray` from
`main.rs`, with the `random_in_unit_disk()` draw passed in as `disk`
(that generator is called by the source but not defined in it; the
spec describes it as a uniform sample of the unit disk in the
`z = 0` plane).  Note the source scales the sample's components by
`s` and `t`: `offset = (s * rd.x, t * rd.y, 0)`. -/
def get_ray (camera : Camera) (s t : ℝ) (disk : Vec3) : Ray :=
  let rd := camera.lens_radius * disk
  let offset : Vec3 := ⟨s * rd.x, t * rd.y, 0⟩
  ⟨camera.origin + offset,
   camera.lower_left_corner + s * camera.horizontal + t * camera.vertical
     - camera.origin - offset⟩

/-- Source: `fn ray_colour(ray, hittable, depth)` from `main.rs`.  The
`Box<&dyn Hittable>` argument is modelled as the hit function `world`;
the stream `rnd` supplies the random draws of bounce `0, 1, 2, ...`. -/
def ray_colour (world : Ray → ℝ → ℝ → Option HitRecord) (rnd : ℕ → RandSample)
    (ray : Ray) (depth : ℤ) : Vec3 :=
  if h : depth ≤ 0 then
    ⟨0, 0, 0⟩
  else
    match world ray 0.001 infinite with
    | some record =>
      match record.material.scatter (rnd 0) ray record with
      | some (attenuation, scattered) =>
        attenuation * ray_colour world (fun n => rnd (n + 1)) scattered (depth - 1)
      | none => ⟨0, 0, 0⟩
    | none =>
      let unit_direction := ray.dir.get_normalized
      let t := 0.5 * (unit_direction.y + 1)
      (1 - t) * (⟨1, 1, 1⟩ : Vec3) + t * (⟨0.5, 0.7, 1⟩ : Vec3)
termination_by depth.toNat
decreasing_by omega

/-- The `as i32` cast of a finite `f64`: truncation toward zero
(saturation at the `i32` range is not modelled; `write_colour` only
ever casts values far inside it). -/
def f64_as_i32 (x : ℝ) : ℤ :=
  if 0 ≤ x then ⌊x⌋ else -⌊-x⌋

/-- Source: `fn write_colour(pixel_colour, samples_per_pixel)` from `main.rs`:
the three integers printed for one pixel — each channel averaged by
`1 / samples_per_pixel`, gamma-corrected by `sqrt`, scaled by
`255.999` and cast to `i32`. -/
def write_colour (pixel_colour : Vec3) (samples_per_pixel : ℤ) : ℤ × ℤ × ℤ :=
  let scale : ℝ := 1 / (samples_per_pixel : ℝ)
  let r := Real.sqrt (scale * pixel_colour.x)
  let g := Real.sqrt (scale * pixel_colour.y)
  let b := Real.sqrt (scale * pixel_colour.z)
  (f64_as_i32 (255.999 * r), f64_as_i32 (255.999 * g), f64_as_i32 (255.999 * b))

/-! ## Reference definitions following the spec's words

The spec's path integrator (§4.5) intersects the ray against the scene
with `t_max = +∞`.  To state that reference we widen the upper bound of
the intersection routine to an `Option ℝ` (`none` meaning no upper
bound); `some u` coincides with the source's bounded routine. -/

/-- Sphere intersection with an optional upper bound, following the
spec's root-acceptance rule (§4.2): with a finite bound it is exactly
`Sphere.hit`; with no bound a root is accepted whenever it exceeds
`t_min`. -/
def Sphere.hitUB (s : Sphere) (ray : Ray) (t_min : ℝ) : Option ℝ → Option HitRecord
  | some u => s.hit ray t_min u
  | none =>
    if hitDiscriminant s ray > 0 then
      let root := Real.sqrt (hitDiscriminant s ray)
      let temp := (-hitHalfB s ray - root) / hitA ray
      if temp > t_min then
        some (sphereRecord s ray temp)
      else
        let temp := (-hitHalfB s ray + root) / hitA ray
        if temp > t_min then
          some (sphereRecord s ray temp)
        else
          none
    else
      none

/-- The spec's scene intersection (§4.2): linear scan over the member
spheres, shrinking the (initially possibly absent) upper bound to the
closest accepted hit so far. -/
def HittableList.hitUB (spheres : List Sphere) (ray : Ray) (t_min : ℝ) (ub : Option ℝ) :
    Option HitRecord :=
  (spheres.foldl
    (fun st s =>
      match s.hitUB ray t_min st.2 with
      | some r => (some r, some r.t)
      | none => st)
    ((none : Option HitRecord), ub)).1

/-- The reference recursive colour estimator, following the claim's and
spec §4.5's words, parameterized by the initial upper intersection
bound `tMax` (`none` = the spec's `+∞`): depth exhausted → black;
hit and scatter → attenuation ⊙ recursive estimate; hit and absorb →
black; no hit → background gradient. -/
def specRayColour (spheres : List Sphere) (tMax : Option ℝ) (rnd : ℕ → RandSample)
    (ray : Ray) (depth : ℤ) : Vec3 :=
  if h : depth ≤ 0 then
    ⟨0, 0, 0⟩
  else
    match HittableList.hitUB spheres ray 0.001 tMax with
    | some record =>
      match record.material.scatter (rnd 0) ray record with
      | some (attenuation, scattered) =>
        attenuation * specRayColour spheres tMax (fun n => rnd (n + 1)) scattered (depth - 1)
      | none => ⟨0, 0, 0⟩
    | none =>
      let t := 0.5 * ((ray.dir.get_normalized).y + 1)
      (1 - t) * (⟨1, 1, 1⟩ : Vec3) + t * (⟨0.5, 0.7, 1⟩ : Vec3)
termination_by depth.toNat
decreasing_by omega

/-- The nearer root `(-half_b - sqrt(disc)) / a` tried first by
`Sphere::hit`. -/
def sphereRoot1 (s : Sphere) (ray : Ray) : ℝ :=
  (-hitHalfB s ray - Real.sqrt (hitDiscriminant s ray)) / hitA ray

/-- The farther root `(-half_b + sqrt(disc)) / a` tried second by
`Sphere::hit`. -/
def sphereRoot2 (s : Sphere) (ray : Ray) : ℝ :=
  (-hitHalfB s ray + Real.sqrt (hitDiscriminant s ray)) / hitA ray

/-- One step of the `HittableList::hit` scan: query the member with
the current upper bound, replacing the state on a hit. -/
def hitStep (ray : Ray) (t_min : ℝ) (st : Option HitRecord × ℝ)
    (object : Ray → ℝ → ℝ → Option HitRecord) : Option HitRecord × ℝ :=
  match object ray t_min st.2 with
  | some object_hit_record => (some object_hit_record, object_hit_record.t)
  | none => st

/-- One step of the spec-side scene scan with an optional upper
bound. -/
def hitStepUB (ray : Ray) (t_min : ℝ) (st : Option HitRecord × Option ℝ) (s : Sphere) :
    Option HitRecord × Option ℝ :=
  match s.hitUB ray t_min st.2 with
  | some r => (some r, some r.t)
  | none => st

/-- The implicit contract of the `Hittable` trait, satisfied by
`Sphere::hit` (proved below): an accepted hit lies strictly inside the
queried bounds; shrinking the upper bound never produces a farther
hit; and a member reporting no hit under a shrunken bound has no hit
nearer than that bound. -/
def HitContract (object : Ray → ℝ → ℝ → Option HitRecord) (ray : Ray) (t_min : ℝ) : Prop :=
  (∀ t_max r, object ray t_min t_max = some r → t_min < r.t ∧ r.t < t_max) ∧
  (∀ u t_max rec r', u ≤ t_max → object ray t_min u = some rec →
    object ray t_min t_max = some r' → rec.t ≤ r'.t) ∧
  (∀ u t_max r', t_min < u → u ≤ t_max → object ray t_min u = none →
    object ray t_min t_max = some r' → u ≤ r'.t)

/-- Invariant of the `HittableList::hit` scan state: the current bound
equals the kept record's `t` (when one is kept) and stays inside
`(t_min, t_max]`. -/
def StInv (t_min t_max : ℝ) (st : Option HitRecord × ℝ) : Prop :=
  (∀ rec, st.1 = some rec → st.2 = rec.t) ∧ t_min < st.2 ∧ st.2 ≤ t_max

/-! ## Basic vector lemmas -/

theorem dot_neg_left (a b : Vec3) : dot (-a) b = -dot a b := by
  simp only [dot, Vec3.neg_def]; ring

theorem dot_neg_right (a b : Vec3) : dot a (-b) = -dot a b := by
  simp only [dot, Vec3.neg_def]; ring

theorem length_squared_nonneg (v : Vec3) : 0 ≤ v.length_squared := by
  simp only [Vec3.length_squared]
  nlinarith [sq_nonneg v.x, sq_nonneg v.y, sq_nonneg v.z]

theorem length_squared_eq_zero_iff (v : Vec3) :
    v.length_squared = 0 ↔ v = ⟨0, 0, 0⟩ := by
  simp only [Vec3.length_squared]
  constructor
  · intro h
    have hx : v.x = 0 := by nlinarith [sq_nonneg v.x, sq_nonneg v.y, sq_nonneg v.z]
    have hy : v.y = 0 := by nlinarith [sq_nonneg v.x, sq_nonneg v.y, sq_nonneg v.z]
    have hz : v.z = 0 := by nlinarith [sq_nonneg v.x, sq_nonneg v.y, sq_nonneg v.z]
    ext <;> assumption
  · intro h; rw [h]; ring

/-- Cauchy–Schwarz for the source's `dot` and `length_squared`, via the
Lagrange identity. -/
theorem dot_sq_le (v w : Vec3) :
    dot v w ^ 2 ≤ v.length_squared * w.length_squared := by
  simp only [dot, Vec3.length_squared]
  nlinarith [sq_nonneg (v.x * w.y - v.y * w.x), sq_nonneg (v.x * w.z - v.z * w.x),
    sq_nonneg (v.y * w.z - v.z * w.y)]

theorem neg_length_squared (v : Vec3) : (-v).length_squared = v.length_squared := by
  simp only [Vec3.length_squared, Vec3.neg_def]; ring

/-- Normalizing a vector of nonzero length yields a vector of squared
length one. -/
theorem get_normalized_length_squared (v : Vec3) (h : v.length_squared ≠ 0) :
    v.get_normalized.length_squared = 1 := by
  have h0 : 0 < v.length_squared := lt_of_le_of_ne (length_squared_nonneg v) (Ne.symm h)
  have hs : Real.sqrt v.length_squared * Real.sqrt v.length_squared = v.length_squared :=
    Real.mul_self_sqrt (le_of_lt h0)
  have hsp : 0 < Real.sqrt v.length_squared := Real.sqrt_pos.mpr h0
  simp only [Vec3.get_normalized, Vec3.length, Vec3.div_def, Vec3.length_squared] at *
  field_simp

/-! ## C9: reflection flips the normal component -/

/-- C9.  For every vector `v` and unit-length vector `n`,
`dot(reflect(v, n), n) = -dot(v, n)`: reflection preserves the
magnitude of the normal component of `v` and flips its sign. -/
theorem reflect_dot_normal (v n : Vec3) (hn : n.length = 1) :
    dot (reflect v n) n = -dot v n := by
  have hls : n.length_squared = 1 := by
    have h0 : 0 ≤ n.length_squared := length_squared_nonneg n
    have := Real.sq_sqrt h0
    simp only [Vec3.length] at hn
    rw [hn] at this
    simpa using this.symm
  simp only [reflect, dot, Vec3.sub_def, Vec3.real_mul_def, Vec3.length_squared] at *
  linear_combination (-(2 : ℝ) * (v.x * n.x + v.y * n.y + v.z * n.z)) * hls

/-- Witness for C9 at `v = (1,2,3)`, `n = (0,1,0)`. -/
theorem reflect_dot_normal_witness :
    Vec3.length ⟨0, 1, 0⟩ = 1 ∧
      dot (reflect ⟨1, 2, 3⟩ ⟨0, 1, 0⟩) ⟨0, 1, 0⟩ = -dot ⟨1, 2, 3⟩ ⟨0, 1, 0⟩ := by
  have hn : Vec3.length ⟨0, 1, 0⟩ = 1 := by
    simp only [Vec3.length, Vec3.length_squared]
    norm_num
  exact ⟨hn, reflect_dot_normal ⟨1, 2, 3⟩ ⟨0, 1, 0⟩ hn⟩

/-! ## C10: the lens jitter cancels on the focus plane -/

/-- C10.  For every camera, coordinates `(s, t)` and lens-disk sample,
the ray `get_ray` returns, evaluated at parameter `1`, lands on
`lower_left_corner + s * horizontal + t * vertical` — independent of
the lens jitter. -/
theorem get_ray_at_one_focus_plane (camera : Camera) (s t : ℝ) (disk : Vec3) :
    (get_ray camera s t disk).at 1 =
      camera.lower_left_corner + s * camera.horizontal + t * camera.vertical := by
  simp only [get_ray, Ray.at, Vec3.add_def, Vec3.sub_def, Vec3.real_mul_def]
  ext <;> ring

/-! ## C6: orientation of the stored face normal -/

/-- A concrete hit record to instantiate counterexamples with. -/
def recStub : HitRecord :=
  ⟨⟨0, 0, 0⟩, ⟨0, 0, 0⟩, 0, false, .lambertian ⟨0, 0, 0⟩⟩

/-- Counterexample to C6: for the ray direction `(1,0,0)` and outward
normal `(0,1,0)` (perpendicular incidence), the stored normal satisfies
`dot(ray.direction, stored_normal) = 0`, which is not `< 0`. -/
theorem set_face_normal_perp_counterexample :
    ¬ dot (Ray.mk ⟨0, 0, 0⟩ ⟨1, 0, 0⟩).dir
        ((recStub.set_face_normal ⟨⟨0, 0, 0⟩, ⟨1, 0, 0⟩⟩ ⟨0, 1, 0⟩).normal) < 0 := by
  simp only [HitRecord.set_face_normal, recStub, dot, Vec3.neg_def]
  norm_num

/-- C6 amended.  After `set_face_normal(ray, outward_normal)` the
stored normal satisfies `dot(ray.direction, stored_normal) ≤ 0` (the
inequality is an equality when the ray is perpendicular to the outward
normal, so it is not strict in general). -/
theorem set_face_normal_dot_nonpos (rec : HitRecord) (ray : Ray) (outward_normal : Vec3) :
    dot ray.dir ((rec.set_face_normal ray outward_normal).normal) ≤ 0 := by
  simp only [HitRecord.set_face_normal]
  by_cases h : dot ray.dir outward_normal < 0
  · simp only [h, if_true, if_pos]
    exact le_of_lt h
  · simp only [h, if_false, if_neg, Bool.false_eq_true, dot_neg_right]
    push_neg at h
    linarith

/-! ## C2: the lens offset of `get_ray` -/

/-- A concrete camera for the C2 counterexample. -/
def camC : Camera :=
  ⟨⟨0, 0, 0⟩, ⟨-2, -1, -1⟩, ⟨4, 0, 0⟩, ⟨0, 2, 0⟩, 1⟩

/-- Counterexample to C2: with the same camera and the same lens-disk
sample `(1/2, 1/2, 0)`, the ray origin at `(s,t) = (1,0)` differs from
the ray origin at `(s,t) = (0,0)` — the origin offset depends on `s`
(the source computes `offset = (s * rd.x, t * rd.y, 0)` in world axes,
not an `s,t`-independent combination of the camera basis). -/
theorem get_ray_offset_counterexample :
    (get_ray camC 1 0 ⟨1 / 2, 1 / 2, 0⟩).origin ≠
      (get_ray camC 0 0 ⟨1 / 2, 1 / 2, 0⟩).origin := by
  simp only [get_ray, camC, Vec3.add_def, Vec3.real_mul_def, Vec3.mk.injEq]
  norm_num

/-- C2 amended.  `get_ray(camera, s, t)` offsets the ray origin by
`(s * rd.x, t * rd.y, 0)` where `rd = lens_radius * disk_sample` — an
offset lying in the world `xy`-plane and scaled componentwise by `s`
and `t` — and the returned direction points from that offset origin at
the focus-plane point `lower_left_corner + s*horizontal + t*vertical`. -/
theorem get_ray_offset_form (camera : Camera) (s t : ℝ) (disk : Vec3) :
    (get_ray camera s t disk).origin =
        camera.origin +
          ⟨s * (camera.lens_radius * disk.x), t * (camera.lens_radius * disk.y), 0⟩ ∧
      (get_ray camera s t disk).dir =
        camera.lower_left_corner + s * camera.horizontal + t * camera.vertical -
          (get_ray camera s t disk).origin := by
  constructor
  · simp only [get_ray, Vec3.real_mul_def]
  · simp only [get_ray, Vec3.add_def, Vec3.sub_def, Vec3.real_mul_def]
    ext <;> ring

/-! ## C7: tangent rays are rejected -/

/-- The unit sphere at the origin with an inert material. -/
def sphereUnit : Sphere :=
  ⟨⟨0, 0, 0⟩, 1, .lambertian ⟨0, 0, 0⟩⟩

/-- A ray tangent to `sphereUnit`: from `(-2,1,0)` along `(1,0,0)`,
grazing the sphere at `(0,1,0)` with parameter `t = 2`. -/
def rayTangent : Ray :=
  ⟨⟨-2, 1, 0⟩, ⟨1, 0, 0⟩⟩

/-- Counterexample to C7: for the tangent ray the discriminant is
exactly `0` and the repeated root `2` lies strictly inside
`(0.001, 10)`, yet `Sphere::hit` returns no hit (the source only
enters the root search when the discriminant is strictly positive). -/
theorem sphere_tangent_counterexample :
    hitDiscriminant sphereUnit rayTangent = 0 ∧
      (0.001 : ℝ) < -hitHalfB sphereUnit rayTangent / hitA rayTangent ∧
      -hitHalfB sphereUnit rayTangent / hitA rayTangent < 10 ∧
      Sphere.hit sphereUnit rayTangent 0.001 10 = none := by
  have hd : hitDiscriminant sphereUnit rayTangent = 0 := by
    simp only [hitDiscriminant, hitHalfB, hitA, hitC, sphereUnit, rayTangent, dot,
      Vec3.sub_def, Vec3.length_squared]
    norm_num
  refine ⟨hd, ?_, ?_, ?_⟩
  · simp only [hitHalfB, hitA, sphereUnit, rayTangent, dot, Vec3.sub_def,
      Vec3.length_squared]
    norm_num
  · simp only [hitHalfB, hitA, sphereUnit, rayTangent, dot, Vec3.sub_def,
      Vec3.length_squared]
    norm_num
  · rw [Sphere.hit, if_neg]
    rw [hd]
    norm_num

/-- C7 amended.  A tangent ray (discriminant exactly `0`) yields no
hit at all, whatever the bounds: `Sphere::hit` returns a record only
when the discriminant is strictly positive, so discriminant `≤ 0`
(tangency included) means no intersection. -/
theorem sphere_hit_nonpos_disc_none (s : Sphere) (ray : Ray) (t_min t_max : ℝ)
    (h : hitDiscriminant s ray ≤ 0) :
    Sphere.hit s ray t_min t_max = none := by
  rw [Sphere.hit, if_neg]
  exact not_lt.mpr h

/-- Witness for the amended C7 at the concrete tangent configuration. -/
theorem sphere_hit_nonpos_disc_none_witness :
    hitDiscriminant sphereUnit rayTangent ≤ 0 ∧
      Sphere.hit sphereUnit rayTangent 0.001 10 = none := by
  have hd : hitDiscriminant sphereUnit rayTangent ≤ 0 := by
    simp only [hitDiscriminant, hitHalfB, hitA, hitC, sphereUnit, rayTangent, dot,
      Vec3.sub_def, Vec3.length_squared]
    norm_num
  exact ⟨hd, sphere_hit_nonpos_disc_none sphereUnit rayTangent 0.001 10 hd⟩

/-! ## C4: metal scattering and absorption -/

/-- C4.  `Metal::scatter` returns `None` exactly when the fuzzed
scattered direction
`reflect(unit(incoming.direction), normal) + fuzz * sample` points
into the surface (`dot ≤ 0`); otherwise it returns the metal's albedo
as attenuation and the scattered ray from the hit point along that
direction.  The sample is any vector of the (closed) unit ball, as
produced by the source's rejection sampler. -/
theorem metal_scatter_absorb_iff (albedo : Vec3) (fuzz : ℝ) (rnd : RandSample)
    (r_in : Ray) (rec : HitRecord) (hs : rnd.sphereVec.length_squared ≤ 1) :
    (Metal.scatter albedo fuzz rnd r_in rec = none ↔
        dot (reflect r_in.dir.get_normalized rec.normal + fuzz * rnd.sphereVec)
          rec.normal ≤ 0) ∧
      (0 < dot (reflect r_in.dir.get_normalized rec.normal + fuzz * rnd.sphereVec)
          rec.normal →
        Metal.scatter albedo fuzz rnd r_in rec =
          some (albedo,
            ⟨rec.p, reflect r_in.dir.get_normalized rec.normal + fuzz * rnd.sphereVec⟩)) := by
  simp only [Metal.scatter]
  by_cases h : 0 < dot (reflect r_in.dir.get_normalized rec.normal + fuzz * rnd.sphereVec)
      rec.normal
  · rw [if_pos h]
    constructor
    · constructor
      · intro hc; exact absurd hc (by simp)
      · intro hc; linarith
    · intro _; rfl
  · rw [if_neg h]
    push_neg at h
    constructor
    · constructor
      · intro _; exact h
      · intro _; rfl
    · intro hc; linarith

/-- A concrete hit record for the C4 witness: hit point at the origin,
normal `(0,0,1)`. -/
def recM : HitRecord :=
  ⟨⟨0, 0, 0⟩, ⟨0, 0, 1⟩, 0, true, .metal ⟨1, 0, 0⟩ 0⟩

/-- Witness for C4: zero fuzz sample, incoming ray `(0,0,-1)` onto
normal `(0,0,1)`. -/
theorem metal_scatter_absorb_iff_witness :
    Vec3.length_squared ⟨0, 0, 0⟩ ≤ 1 ∧
      ((Metal.scatter ⟨1, 0, 0⟩ 0 ⟨⟨0, 0, 0⟩, ⟨0, 0, 0⟩, 0⟩ ⟨⟨0, 0, 0⟩, ⟨0, 0, -1⟩⟩ recM = none ↔
          dot (reflect (Ray.mk ⟨0, 0, 0⟩ ⟨0, 0, -1⟩).dir.get_normalized recM.normal +
              (0 : ℝ) * (⟨0, 0, 0⟩ : Vec3)) recM.normal ≤ 0) ∧
        (0 < dot (reflect (Ray.mk ⟨0, 0, 0⟩ ⟨0, 0, -1⟩).dir.get_normalized recM.normal +
              (0 : ℝ) * (⟨0, 0, 0⟩ : Vec3)) recM.normal →
          Metal.scatter ⟨1, 0, 0⟩ 0 ⟨⟨0, 0, 0⟩, ⟨0, 0, 0⟩, 0⟩ ⟨⟨0, 0, 0⟩, ⟨0, 0, -1⟩⟩ recM =
            some (⟨1, 0, 0⟩,
              ⟨recM.p, reflect (Ray.mk ⟨0, 0, 0⟩ ⟨0, 0, -1⟩).dir.get_normalized recM.normal +
                (0 : ℝ) * (⟨0, 0, 0⟩ : Vec3)⟩))) := by
  refine ⟨by simp [Vec3.length_squared], ?_⟩
  exact metal_scatter_absorb_iff ⟨1, 0, 0⟩ 0 ⟨⟨0, 0, 0⟩, ⟨0, 0, 0⟩, 0⟩
    ⟨⟨0, 0, 0⟩, ⟨0, 0, -1⟩⟩ recM (by simp [Vec3.length_squared])

/-! ## C8: gamma correction and quantization -/

/-- One colour channel of `write_colour`: with `0 ≤ a ≤ N` and
`0 < N`, the emitted integer is `⌊255.999 * sqrt(a / N)⌋` and lies in
`[0, 255]`. -/
theorem channel_quantize (a : ℝ) (N : ℤ) (hN : 0 < N) (h0 : 0 ≤ a) (h1 : a ≤ (N : ℝ)) :
    f64_as_i32 (255.999 * Real.sqrt (1 / (N : ℝ) * a)) =
        ⌊(255.999 : ℝ) * Real.sqrt (a / (N : ℝ))⌋ ∧
      0 ≤ ⌊(255.999 : ℝ) * Real.sqrt (a / (N : ℝ))⌋ ∧
      ⌊(255.999 : ℝ) * Real.sqrt (a / (N : ℝ))⌋ ≤ 255 := by
  have hNR : (0 : ℝ) < (N : ℝ) := by exact_mod_cast hN
  have harg : 1 / (N : ℝ) * a = a / (N : ℝ) := by ring
  have hs0 : 0 ≤ Real.sqrt (a / (N : ℝ)) := Real.sqrt_nonneg _
  have hv0 : 0 ≤ (255.999 : ℝ) * Real.sqrt (a / (N : ℝ)) := by positivity
  have hdiv1 : a / (N : ℝ) ≤ 1 := (div_le_one hNR).mpr h1
  have hs1 : Real.sqrt (a / (N : ℝ)) ≤ 1 := by
    have := Real.sqrt_le_sqrt hdiv1
    rwa [Real.sqrt_one] at this
  refine ⟨?_, ?_, ?_⟩
  · rw [harg, f64_as_i32, if_pos hv0]
  · exact Int.floor_nonneg.mpr hv0
  · have hlt : (255.999 : ℝ) * Real.sqrt (a / (N : ℝ)) < ((256 : ℤ) : ℝ) := by
      push_cast
      nlinarith
    have := Int.floor_lt.mpr hlt
    omega

/-- C8.  For an accumulated pixel colour with each channel in `[0, N]`
and sample count `N > 0`, `write_colour` emits
`⌊255.999 * sqrt(channel / N)⌋` per channel, and every emitted value
lies in `[0, 255]`. -/
theorem write_colour_gamma_quantize (pc : Vec3) (N : ℤ) (hN : 0 < N)
    (hx0 : 0 ≤ pc.x) (hx1 : pc.x ≤ (N : ℝ)) (hy0 : 0 ≤ pc.y) (hy1 : pc.y ≤ (N : ℝ))
    (hz0 : 0 ≤ pc.z) (hz1 : pc.z ≤ (N : ℝ)) :
    write_colour pc N =
        (⌊(255.999 : ℝ) * Real.sqrt (pc.x / (N : ℝ))⌋,
         ⌊(255.999 : ℝ) * Real.sqrt (pc.y / (N : ℝ))⌋,
         ⌊(255.999 : ℝ) * Real.sqrt (pc.z / (N : ℝ))⌋) ∧
      (0 ≤ ⌊(255.999 : ℝ) * Real.sqrt (pc.x / (N : ℝ))⌋ ∧
        ⌊(255.999 : ℝ) * Real.sqrt (pc.x / (N : ℝ))⌋ ≤ 255) ∧
      (0 ≤ ⌊(255.999 : ℝ) * Real.sqrt (pc.y / (N : ℝ))⌋ ∧
        ⌊(255.999 : ℝ) * Real.sqrt (pc.y / (N : ℝ))⌋ ≤ 255) ∧
      (0 ≤ ⌊(255.999 : ℝ) * Real.sqrt (pc.z / (N : ℝ))⌋ ∧
        ⌊(255.999 : ℝ) * Real.sqrt (pc.z / (N : ℝ))⌋ ≤ 255) := by
  obtain ⟨hxe, hxl, hxu⟩ := channel_quantize pc.x N hN hx0 hx1
  obtain ⟨hye, hyl, hyu⟩ := channel_quantize pc.y N hN hy0 hy1
  obtain ⟨hze, hzl, hzu⟩ := channel_quantize pc.z N hN hz0 hz1
  refine ⟨?_, ⟨hxl, hxu⟩, ⟨hyl, hyu⟩, ⟨hzl, hzu⟩⟩
  simp only [write_colour]
  rw [hxe, hye, hze]

/-- Witness for C8 at `pixel_colour = (0, 0, 1)`, `N = 1`. -/
theorem write_colour_gamma_quantize_witness :
    (0 : ℤ) < 1 ∧
      (write_colour ⟨0, 0, 1⟩ 1 =
          (⌊(255.999 : ℝ) * Real.sqrt ((0 : ℝ) / ((1 : ℤ) : ℝ))⌋,
           ⌊(255.999 : ℝ) * Real.sqrt ((0 : ℝ) / ((1 : ℤ) : ℝ))⌋,
           ⌊(255.999 : ℝ) * Real.sqrt ((1 : ℝ) / ((1 : ℤ) : ℝ))⌋) ∧
        (0 ≤ ⌊(255.999 : ℝ) * Real.sqrt ((0 : ℝ) / ((1 : ℤ) : ℝ))⌋ ∧
          ⌊(255.999 : ℝ) * Real.sqrt ((0 : ℝ) / ((1 : ℤ) : ℝ))⌋ ≤ 255) ∧
        (0 ≤ ⌊(255.999 : ℝ) * Real.sqrt ((0 : ℝ) / ((1 : ℤ) : ℝ))⌋ ∧
          ⌊(255.999 : ℝ) * Real.sqrt ((0 : ℝ) / ((1 : ℤ) : ℝ))⌋ ≤ 255) ∧
        (0 ≤ ⌊(255.999 : ℝ) * Real.sqrt ((1 : ℝ) / ((1 : ℤ) : ℝ))⌋ ∧
          ⌊(255.999 : ℝ) * Real.sqrt ((1 : ℝ) / ((1 : ℤ) : ℝ))⌋ ≤ 255)) := by
  refine ⟨by norm_num, ?_⟩
  exact write_colour_gamma_quantize ⟨0, 0, 1⟩ 1 (by norm_num) (by norm_num) (by norm_num)
    (by norm_num) (by norm_num) (by norm_num) (by norm_num)

/-! ## C5: the exact critical angle of the dielectric -/

theorem real_mul_length_squared (r : ℝ) (v : Vec3) :
    (r * v).length_squared = r ^ 2 * v.length_squared := by
  simp only [Vec3.length_squared, Vec3.real_mul_def]; ring

theorem add_scaled_length_squared (u n : Vec3) (k : ℝ) :
    (u + k * n).length_squared =
      u.length_squared + 2 * k * dot u n + k ^ 2 * n.length_squared := by
  simp only [Vec3.length_squared, Vec3.add_def, Vec3.real_mul_def, dot]; ring

/-- C5 amended.  At the exact grazing critical angle
(`ratio * sin_theta = 1.0`), `Dielectric::scatter` does not take the
total-internal-reflection branch (its test `ratio * sin_theta > 1.0`
is strict), but the refraction formula is still never evaluated with a
negative argument under the square root: at that angle the argument
`1 - |r_out_perp|²` is exactly `0`.  The scatter call still returns a
ray (attenuation `(1,1,1)`), reflected or refracted according to the
Schlick draw. -/
theorem dielectric_critical_angle (ref_idx : ℝ) (rnd : RandSample) (r_in : Ray)
    (rec : HitRecord) (hdir : r_in.dir ≠ ⟨0, 0, 0⟩)
    (hn : rec.normal.length_squared = 1)
    (hcrit : dielectricRatio ref_idx rec * dielectricSinTheta r_in rec = 1) :
    ¬ dielectricRatio ref_idx rec * dielectricSinTheta r_in rec > 1 ∧
      refractSqrtArg r_in.dir.get_normalized rec.normal (dielectricRatio ref_idx rec) = 0 ∧
      ∃ ray', Dielectric.scatter ref_idx rnd r_in rec = some (⟨1, 1, 1⟩, ray') := by
  have hls : r_in.dir.length_squared ≠ 0 := by
    intro h
    exact hdir ((length_squared_eq_zero_iff r_in.dir).mp h)
  have hu : r_in.dir.get_normalized.length_squared = 1 :=
    get_normalized_length_squared r_in.dir hls
  set u := r_in.dir.get_normalized with hu_def
  set n := rec.normal with hn_def
  set c₀ := dot (-u) n with hc₀
  have hcs : c₀ ^ 2 ≤ 1 := by
    have := dot_sq_le (-u) n
    rwa [neg_length_squared, hu, hn, one_mul] at this
  have hc₀le1 : c₀ ≤ 1 := by nlinarith
  have hmin : dielectricCosTheta r_in rec = c₀ := by
    rw [dielectricCosTheta]
    exact min_eq_left hc₀le1
  have hsqnn : 0 ≤ 1 - c₀ * c₀ := by nlinarith
  have hs2 : dielectricSinTheta r_in rec ^ 2 = 1 - c₀ * c₀ := by
    rw [dielectricSinTheta, hmin]
    exact Real.sq_sqrt hsqnn
  have hr2 : dielectricRatio ref_idx rec ^ 2 * (1 - c₀ * c₀) = 1 := by
    have := congrArg (fun x => x ^ 2) hcrit
    simp only [mul_pow, one_pow] at this
    rw [hs2] at this
    exact this
  refine ⟨by rw [hcrit]; exact lt_irrefl 1, ?_, ?_⟩
  · rw [refractSqrtArg, refractPerp]
    rw [show min (dot (-u) n) 1 = c₀ from min_eq_left hc₀le1]
    rw [real_mul_length_squared, add_scaled_length_squared, hu, hn]
    have hdun : dot u n = -c₀ := by rw [hc₀, dot_neg_left]; ring
    rw [hdun]
    nlinarith [hr2]
  · rw [Dielectric.scatter]
    split_ifs <;> exact ⟨_, rfl⟩

/-- The concrete critical-angle configuration: a ray along `(4,-3,0)`
inside a dielectric of index `5/4` hitting a back face with normal
`(0,1,0)`, so `cos = 3/5`, `sin = 4/5` and `ratio * sin = 1`
exactly. -/
def rayCrit : Ray :=
  ⟨⟨0, 0, 0⟩, ⟨4, -3, 0⟩⟩

/-- The hit record of the critical-angle configuration (back face, so
the refraction ratio is the index itself). -/
def recCrit : HitRecord :=
  ⟨⟨0, 0, 0⟩, ⟨0, 1, 0⟩, 0, false, .dielectric (5 / 4)⟩

/-- The random draws for the critical-angle configuration; the Schlick
draw `1/2` exceeds the reflectance, selecting refraction. -/
def rndCrit : RandSample :=
  ⟨⟨0, 0, 0⟩, ⟨0, 0, 0⟩, 1 / 2⟩

theorem rayCrit_unit : rayCrit.dir.get_normalized = ⟨4 / 5, -3 / 5, 0⟩ := by
  have h25 : Real.sqrt (4 * 4 + -3 * -3 + 0 * 0) = 5 := by
    rw [show (4 * 4 + -3 * -3 + 0 * 0 : ℝ) = 5 ^ 2 by norm_num]
    exact Real.sqrt_sq (by norm_num)
  simp only [rayCrit, Vec3.get_normalized, Vec3.length, Vec3.length_squared, Vec3.div_def]
  rw [h25]
  norm_num

theorem recCrit_cos : dielectricCosTheta rayCrit recCrit = 3 / 5 := by
  rw [dielectricCosTheta, rayCrit_unit]
  simp only [recCrit, dot, Vec3.neg_def]
  norm_num

theorem recCrit_sin : dielectricSinTheta rayCrit recCrit = 4 / 5 := by
  rw [dielectricSinTheta, recCrit_cos]
  rw [show (1 - 3 / 5 * (3 / 5) : ℝ) = (4 / 5) ^ 2 by norm_num]
  exact Real.sqrt_sq (by norm_num)

theorem recCrit_ratio : dielectricRatio (5 / 4) recCrit = 5 / 4 := by
  simp [dielectricRatio, recCrit]

/-- Counterexample to C5: at the exact critical angle
(`ratio * sin_theta = 1`), `Dielectric::scatter` does not return a
reflected ray: its TIR test is strict, the Schlick draw `1/2` exceeds
the reflectance, and the returned direction is the refracted
`(1,0,0)`, which differs from the reflected direction
`(4/5, 3/5, 0)`. -/
theorem dielectric_critical_counterexample :
    dielectricRatio (5 / 4) recCrit * dielectricSinTheta rayCrit recCrit = 1 ∧
      Dielectric.scatter (5 / 4) rndCrit rayCrit recCrit =
        some (⟨1, 1, 1⟩, ⟨⟨0, 0, 0⟩, ⟨1, 0, 0⟩⟩) ∧
      reflect rayCrit.dir.get_normalized recCrit.normal = ⟨4 / 5, 3 / 5, 0⟩ ∧
      (⟨1, 0, 0⟩ : Vec3) ≠ (⟨4 / 5, 3 / 5, 0⟩ : Vec3) := by
  have hcrit : dielectricRatio (5 / 4) recCrit * dielectricSinTheta rayCrit recCrit = 1 := by
    rw [recCrit_ratio, recCrit_sin]; norm_num
  have hperp : refractPerp (⟨4 / 5, -3 / 5, 0⟩ : Vec3) (⟨0, 1, 0⟩ : Vec3) (5 / 4) =
      ⟨1, 0, 0⟩ := by
    simp only [refractPerp, dot, Vec3.neg_def, Vec3.add_def, Vec3.real_mul_def,
      Vec3.mk.injEq, min_def]
    norm_num
  have harg : refractSqrtArg (⟨4 / 5, -3 / 5, 0⟩ : Vec3) (⟨0, 1, 0⟩ : Vec3) (5 / 4) = 0 := by
    rw [refractSqrtArg, hperp]
    simp only [Vec3.length_squared]
    norm_num
  have hrefr : refract (⟨4 / 5, -3 / 5, 0⟩ : Vec3) (⟨0, 1, 0⟩ : Vec3) (5 / 4) =
      ⟨1, 0, 0⟩ := by
    rw [refract, hperp, harg, Real.sqrt_zero]
    simp only [Vec3.add_def, Vec3.real_mul_def, Vec3.mk.injEq]
    norm_num
  have hnrm : recCrit.normal = (⟨0, 1, 0⟩ : Vec3) := rfl
  refine ⟨hcrit, ?_, ?_, ?_⟩
  · rw [Dielectric.scatter, if_neg (by rw [hcrit]; exact lt_irrefl 1), if_neg]
    · rw [recCrit_ratio, rayCrit_unit, hnrm, hrefr]
      rfl
    · rw [recCrit_cos, recCrit_ratio, schlick]
      simp only [rndCrit]
      norm_num
  · rw [reflect, rayCrit_unit, hnrm]
    simp only [dot, Vec3.sub_def, Vec3.real_mul_def, Vec3.mk.injEq]
    norm_num
  · simp only [ne_eq, Vec3.mk.injEq]
    norm_num

/-- Witness for the amended C5 at the concrete critical-angle
configuration. -/
theorem dielectric_critical_angle_witness :
    (rayCrit.dir ≠ (⟨0, 0, 0⟩ : Vec3) ∧ recCrit.normal.length_squared = 1 ∧
        dielectricRatio (5 / 4) recCrit * dielectricSinTheta rayCrit recCrit = 1) ∧
      (¬ dielectricRatio (5 / 4) recCrit * dielectricSinTheta rayCrit recCrit > 1 ∧
        refractSqrtArg rayCrit.dir.get_normalized recCrit.normal
          (dielectricRatio (5 / 4) recCrit) = 0 ∧
        ∃ ray', Dielectric.scatter (5 / 4) rndCrit rayCrit recCrit =
          some (⟨1, 1, 1⟩, ray')) := by
  have h1 : rayCrit.dir ≠ (⟨0, 0, 0⟩ : Vec3) := by
    simp only [rayCrit, ne_eq, Vec3.mk.injEq]
    norm_num
  have h2 : recCrit.normal.length_squared = 1 := by
    simp only [recCrit, Vec3.length_squared]
    norm_num
  have h3 : dielectricRatio (5 / 4) recCrit * dielectricSinTheta rayCrit recCrit = 1 := by
    rw [recCrit_ratio, recCrit_sin]; norm_num
  exact ⟨⟨h1, h2, h3⟩, dielectric_critical_angle (5 / 4) rndCrit rayCrit recCrit h1 h2 h3⟩

/-! ## C3: closest-hit semantics of `HittableList::hit` -/

theorem hittableList_hit_eq_foldl (objects : List (Ray → ℝ → ℝ → Option HitRecord))
    (ray : Ray) (t_min t_max : ℝ) :
    HittableList.hit objects ray t_min t_max =
      (objects.foldl (hitStep ray t_min) ((none : Option HitRecord), t_max)).1 := rfl

theorem hitStep_fst_isSome (ray : Ray) (t_min : ℝ) (st : Option HitRecord × ℝ)
    (o : Ray → ℝ → ℝ → Option HitRecord) (h : st.1.isSome) :
    (hitStep ray t_min st o).1.isSome := by
  simp only [hitStep]
  rcases ho : o ray t_min st.2 with _ | r
  · simpa using h
  · simp

theorem foldl_fst_isSome (ray : Ray) (t_min : ℝ)
    (l : List (Ray → ℝ → ℝ → Option HitRecord)) :
    ∀ st : Option HitRecord × ℝ, st.1.isSome →
      ((l.foldl (hitStep ray t_min) st).1.isSome) := by
  induction l with
  | nil => intro st h; simpa using h
  | cons o l ih =>
    intro st h
    simp only [List.foldl_cons]
    exact ih _ (hitStep_fst_isSome ray t_min st o h)

theorem foldl_some_exists (ray : Ray) (t_min : ℝ)
    (l : List (Ray → ℝ → ℝ → Option HitRecord)) (c : ℝ) (r : HitRecord)
    (h : (l.foldl (hitStep ray t_min) ((none : Option HitRecord), c)).1 = some r) :
    ∃ o ∈ l, ∃ r', o ray t_min c = some r' := by
  induction l with
  | nil => simp at h
  | cons o l ih =>
    rcases ho : o ray t_min c with _ | r0
    · refine (ih ?_).imp fun o' h' => ⟨List.mem_cons_of_mem _ h'.1, h'.2⟩
      simpa only [List.foldl_cons, hitStep, ho] using h
    · exact ⟨o, List.mem_cons_self o l, r0, ho⟩

theorem foldl_exists_isSome (ray : Ray) (t_min : ℝ)
    (l : List (Ray → ℝ → ℝ → Option HitRecord)) (c : ℝ)
    (h : ∃ o ∈ l, ∃ r', o ray t_min c = some r') :
    (l.foldl (hitStep ray t_min) ((none : Option HitRecord), c)).1.isSome := by
  induction l with
  | nil => simp at h
  | cons a l ih =>
    rcases h with ⟨o, ho_mem, r', hr'⟩
    simp only [List.foldl_cons]
    rcases List.mem_cons.mp ho_mem with rfl | hmem
    · refine foldl_fst_isSome ray t_min l _ ?_
      simp [hitStep, hr']
    · rcases ha : a ray t_min c with _ | r0
      · have : hitStep ray t_min ((none : Option HitRecord), c) a =
            ((none : Option HitRecord), c) := by
          simp only [hitStep, ha]
        rw [this]
        exact ih ⟨o, hmem, r', hr'⟩
      · refine foldl_fst_isSome ray t_min l _ ?_
        simp [hitStep, ha]

theorem hitStep_inv (ray : Ray) (t_min t_max : ℝ) (st : Option HitRecord × ℝ)
    (o : Ray → ℝ → ℝ → Option HitRecord) (hc : HitContract o ray t_min)
    (h : StInv t_min t_max st) :
    StInv t_min t_max (hitStep ray t_min st o) ∧ (hitStep ray t_min st o).2 ≤ st.2 := by
  rcases h with ⟨hfst, hlo, hhi⟩
  simp only [hitStep]
  rcases ho : o ray t_min st.2 with _ | r
  · exact ⟨⟨hfst, hlo, hhi⟩, le_refl _⟩
  · obtain ⟨hrlo, hrhi⟩ := hc.1 st.2 r ho
    refine ⟨⟨?_, hrlo, le_trans (le_of_lt hrhi) hhi⟩, le_of_lt hrhi⟩
    intro rec hrec
    simp only [Option.some.injEq] at hrec
    rw [hrec]

theorem foldl_inv (ray : Ray) (t_min t_max : ℝ)
    (l : List (Ray → ℝ → ℝ → Option HitRecord)) :
    ∀ st : Option HitRecord × ℝ, (∀ o ∈ l, HitContract o ray t_min) →
      StInv t_min t_max st →
      StInv t_min t_max (l.foldl (hitStep ray t_min) st) ∧
        (l.foldl (hitStep ray t_min) st).2 ≤ st.2 := by
  induction l with
  | nil => intro st _ h; exact ⟨h, le_refl _⟩
  | cons o l ih =>
    intro st hcl h
    simp only [List.foldl_cons]
    obtain ⟨h1, h2⟩ := hitStep_inv ray t_min t_max st o (hcl o (List.mem_cons_self o l)) h
    obtain ⟨h3, h4⟩ := ih _ (fun o' ho' => hcl o' (List.mem_cons_of_mem _ ho')) h1
    exact ⟨h3, le_trans h4 h2⟩

theorem foldl_bound_le (ray : Ray) (t_min t_max : ℝ)
    (l : List (Ray → ℝ → ℝ → Option HitRecord)) :
    ∀ st : Option HitRecord × ℝ, (∀ o ∈ l, HitContract o ray t_min) →
      StInv t_min t_max st →
      ∀ o ∈ l, ∀ r', o ray t_min t_max = some r' →
        (l.foldl (hitStep ray t_min) st).2 ≤ r'.t := by
  induction l with
  | nil => intro st _ _ o ho; exact absurd ho (List.not_mem_nil o)
  | cons a l ih =>
    intro st hcl h o ho r' hr'
    have hca : HitContract a ray t_min := hcl a (List.mem_cons_self a l)
    have hcl' : ∀ o' ∈ l, HitContract o' ray t_min :=
      fun o' ho' => hcl o' (List.mem_cons_of_mem _ ho')
    obtain ⟨hinv2, hdec⟩ := hitStep_inv ray t_min t_max st a hca h
    simp only [List.foldl_cons]
    rcases List.mem_cons.mp ho with rfl | hmem
    · have hmono := (foldl_inv ray t_min t_max l _ hcl' hinv2).2
      refine le_trans hmono ?_
      rcases ha : o ray t_min st.2 with _ | rec
      · have hstep : hitStep ray t_min st o = st := by simp only [hitStep, ha]
        rw [hstep]
        exact hca.2.2 st.2 t_max r' h.2.1 h.2.2 ha hr'
      · have hstep : (hitStep ray t_min st o).2 = rec.t := by simp only [hitStep, ha]
        rw [hstep]
        exact hca.2.1 st.2 t_max rec r' h.2.2 ha hr'
    · exact ih _ hcl' hinv2 o hmem r' hr'

/-- C3.  For every ray, bounds `t_min < t_max` and list of hittables
(each member a `dyn Hittable` hit function satisfying the trait's
contract `HitContract`, as `Sphere::hit` does), `HittableList::hit`
returns `Some` iff at least one member returns a hit within the
bounds, and the returned record's `t` is minimal among all the
members' accepted hits — closest-hit, not first-hit, semantics. -/
theorem hittableList_hit_closest (objects : List (Ray → ℝ → ℝ → Option HitRecord))
    (ray : Ray) (t_min t_max : ℝ) (hlt : t_min < t_max)
    (hc : ∀ o ∈ objects, HitContract o ray t_min) :
    ((HittableList.hit objects ray t_min t_max).isSome ↔
        ∃ o ∈ objects, ∃ r', o ray t_min t_max = some r') ∧
      ∀ r, HittableList.hit objects ray t_min t_max = some r →
        ∀ o ∈ objects, ∀ r', o ray t_min t_max = some r' → r.t ≤ r'.t := by
  rw [hittableList_hit_eq_foldl]
  have hinv0 : StInv t_min t_max ((none : Option HitRecord), t_max) := by
    refine ⟨?_, hlt, le_refl _⟩
    intro rec hrec
    simp at hrec
  constructor
  · constructor
    · intro h
      rcases Option.isSome_iff_exists.mp h with ⟨r, hr⟩
      exact foldl_some_exists ray t_min objects t_max r hr
    · intro h
      exact foldl_exists_isSome ray t_min objects t_max h
  · intro r hr o ho r' hr'
    have hfin := (foldl_inv ray t_min t_max objects _ hc hinv0).1.1 r hr
    rw [← hfin]
    exact foldl_bound_le ray t_min t_max objects _ hc hinv0 o ho r' hr'

/-! ## `Sphere::hit` satisfies the `Hittable` contract -/

theorem sphere_hit_eq (s : Sphere) (ray : Ray) (t_min t_max : ℝ) :
    Sphere.hit s ray t_min t_max =
      if hitDiscriminant s ray > 0 then
        if sphereRoot1 s ray < t_max ∧ sphereRoot1 s ray > t_min then
          some (sphereRecord s ray (sphereRoot1 s ray))
        else if sphereRoot2 s ray < t_max ∧ sphereRoot2 s ray > t_min then
          some (sphereRecord s ray (sphereRoot2 s ray))
        else
          none
      else
        none := rfl

theorem sphereRecord_t (s : Sphere) (ray : Ray) (temp : ℝ) :
    (sphereRecord s ray temp).t = temp := rfl

theorem hitA_pos (s : Sphere) (ray : Ray) (hd : 0 < hitDiscriminant s ray) :
    0 < hitA ray := by
  rcases lt_or_eq_of_le (length_squared_nonneg ray.dir) with h | h
  · exact h
  · exfalso
    have hdir : ray.dir = ⟨0, 0, 0⟩ := (length_squared_eq_zero_iff ray.dir).mp h.symm
    have hb0 : hitHalfB s ray = 0 := by
      rw [hitHalfB, hdir]
      simp [dot]
    have hd0 : hitDiscriminant s ray = 0 := by
      rw [hitDiscriminant, hb0, hitA, hdir]
      simp [Vec3.length_squared]
    rw [hd0] at hd
    exact lt_irrefl 0 hd

theorem sphereRoot1_le_sphereRoot2 (s : Sphere) (ray : Ray)
    (hd : 0 < hitDiscriminant s ray) : sphereRoot1 s ray ≤ sphereRoot2 s ray := by
  have ha := hitA_pos s ray hd
  have hrt := Real.sqrt_nonneg (hitDiscriminant s ray)
  rw [sphereRoot1, sphereRoot2]
  exact (div_le_div_iff_of_pos_right ha).mpr (by linarith)

theorem sphere_hit_some_iff (s : Sphere) (ray : Ray) (t_min t_max : ℝ) (r : HitRecord) :
    Sphere.hit s ray t_min t_max = some r ↔
      0 < hitDiscriminant s ray ∧
        ((sphereRoot1 s ray < t_max ∧ sphereRoot1 s ray > t_min ∧
            r = sphereRecord s ray (sphereRoot1 s ray)) ∨
          (¬(sphereRoot1 s ray < t_max ∧ sphereRoot1 s ray > t_min) ∧
            sphereRoot2 s ray < t_max ∧ sphereRoot2 s ray > t_min ∧
            r = sphereRecord s ray (sphereRoot2 s ray))) := by
  rw [sphere_hit_eq]
  split_ifs with hd h1 h2
  · simp only [Option.some.injEq, gt_iff_lt]
    constructor
    · intro h
      exact ⟨hd, Or.inl ⟨h1.1, h1.2, h.symm⟩⟩
    · rintro ⟨_, h | h⟩
      · exact h.2.2.symm
      · exact absurd h1 h.1
  · simp only [Option.some.injEq, gt_iff_lt]
    constructor
    · intro h
      exact ⟨hd, Or.inr ⟨h1, h2.1, h2.2, h.symm⟩⟩
    · rintro ⟨_, h | h⟩
      · exact absurd ⟨h.1, h.2.1⟩ h1
      · exact h.2.2.2.symm
  · simp only [(by simp : (none : Option HitRecord) ≠ some r), false_iff]
    rintro ⟨_, h | h⟩
    · exact h1 ⟨h.1, h.2.1⟩
    · exact h2 ⟨h.2.1, h.2.2.1⟩
  · simp only [(by simp : (none : Option HitRecord) ≠ some r), false_iff]
    rintro ⟨h, _⟩
    exact hd h

/-- Source: `Sphere::hit` satisfies the `Hittable` contract assumed of list
members by the closest-hit theorem. -/
theorem sphere_contract (s : Sphere) (ray : Ray) (t_min : ℝ) :
    HitContract (Sphere.hit s) ray t_min := by
  refine ⟨?_, ?_, ?_⟩
  · intro t_max r h
    rcases (sphere_hit_some_iff s ray t_min t_max r).mp h with ⟨_, hcase | hcase⟩
    · rw [hcase.2.2, sphereRecord_t]
      exact ⟨hcase.2.1, hcase.1⟩
    · rw [hcase.2.2.2, sphereRecord_t]
      exact ⟨hcase.2.2.1, hcase.2.1⟩
  · intro u t_max rec r' hu hhu hht
    obtain ⟨hd, hcu⟩ := (sphere_hit_some_iff s ray t_min u rec).mp hhu
    obtain ⟨_, hcm⟩ := (sphere_hit_some_iff s ray t_min t_max r').mp hht
    have h12 := sphereRoot1_le_sphereRoot2 s ray hd
    rcases hcu with ⟨h1u, h1umin, hrec⟩ | ⟨hneg, h2u, h2umin, hrec⟩ <;>
      rcases hcm with ⟨h1m, h1mmin, hr'⟩ | ⟨hnegm, h2m, h2mmin, hr'⟩ <;>
        simp only [hrec, hr', sphereRecord_t]
    · exact le_refl _
    · exact h12
    · have hge : ¬ sphereRoot1 s ray < u := fun hlt => hneg ⟨hlt, h1mmin⟩
      push_neg at hge
      linarith
    · exact le_refl _
  · intro u t_max r' hlo hu hnone hht
    obtain ⟨hd, hcm⟩ := (sphere_hit_some_iff s ray t_min t_max r').mp hht
    rw [sphere_hit_eq, if_pos hd] at hnone
    by_cases hc1 : sphereRoot1 s ray < u ∧ sphereRoot1 s ray > t_min
    · rw [if_pos hc1] at hnone
      exact absurd hnone (by simp)
    by_cases hc2 : sphereRoot2 s ray < u ∧ sphereRoot2 s ray > t_min
    · rw [if_neg hc1, if_pos hc2] at hnone
      exact absurd hnone (by simp)
    rcases hcm with ⟨h1m, h1mmin, hr'⟩ | ⟨hnegm, h2m, h2mmin, hr'⟩
    · have hge : ¬ sphereRoot1 s ray < u := fun hlt => hc1 ⟨hlt, h1mmin⟩
      push_neg at hge
      rw [hr', sphereRecord_t]
      exact hge
    · have hge : ¬ sphereRoot2 s ray < u := fun hlt => hc2 ⟨hlt, h2mmin⟩
      push_neg at hge
      rw [hr', sphereRecord_t]
      exact hge

/-- Witness for C3: a single unit sphere queried with bounds
`(0.001, 10)`. -/
theorem hittableList_hit_closest_witness :
    ((0.001 : ℝ) < 10 ∧ ∀ o ∈ [Sphere.hit sphereUnit], HitContract o rayTangent 0.001) ∧
      (((HittableList.hit [Sphere.hit sphereUnit] rayTangent 0.001 10).isSome ↔
          ∃ o ∈ [Sphere.hit sphereUnit], ∃ r', o rayTangent 0.001 10 = some r') ∧
        ∀ r, HittableList.hit [Sphere.hit sphereUnit] rayTangent 0.001 10 = some r →
          ∀ o ∈ [Sphere.hit sphereUnit], ∀ r',
            o rayTangent 0.001 10 = some r' → r.t ≤ r'.t) := by
  have h1 : (0.001 : ℝ) < 10 := by norm_num
  have h2 : ∀ o ∈ [Sphere.hit sphereUnit], HitContract o rayTangent 0.001 := by
    intro o ho
    rcases List.mem_singleton.mp ho with rfl
    exact sphere_contract sphereUnit rayTangent 0.001
  exact ⟨⟨h1, h2⟩, hittableList_hit_closest [Sphere.hit sphereUnit] rayTangent 0.001 10 h1 h2⟩

/-! ## C1: the path integrator against its reference definition -/

theorem infinite_pos : (0 : ℝ) < infinite := by
  rw [infinite]
  norm_num

theorem sphere_hitUB_some (s : Sphere) (ray : Ray) (t_min u : ℝ) :
    s.hitUB ray t_min (some u) = s.hit ray t_min u := rfl

theorem hitUB_eq_foldl (spheres : List Sphere) (ray : Ray) (t_min : ℝ) (ub : Option ℝ) :
    HittableList.hitUB spheres ray t_min ub =
      (spheres.foldl (hitStepUB ray t_min) ((none : Option HitRecord), ub)).1 := rfl

theorem foldUB_rel (ray : Ray) (t_min : ℝ) (l : List Sphere) :
    ∀ (o : Option HitRecord) (c : ℝ),
      (l.foldl (hitStepUB ray t_min) (o, some c)).1 =
          ((l.map Sphere.hit).foldl (hitStep ray t_min) (o, c)).1 ∧
        (l.foldl (hitStepUB ray t_min) (o, some c)).2 =
          some ((l.map Sphere.hit).foldl (hitStep ray t_min) (o, c)).2 := by
  induction l with
  | nil => intro o c; exact ⟨rfl, rfl⟩
  | cons sp l ih =>
    intro o c
    simp only [List.map_cons, List.foldl_cons]
    rcases h : sp.hit ray t_min c with _ | r
    · have h1 : hitStepUB ray t_min (o, some c) sp = (o, some c) := by
        simp only [hitStepUB, sphere_hitUB_some, h]
      have h2 : hitStep ray t_min (o, c) (Sphere.hit sp) = (o, c) := by
        simp only [hitStep, h]
      rw [h1, h2]
      exact ih o c
    · have h1 : hitStepUB ray t_min (o, some c) sp = (some r, some r.t) := by
        simp only [hitStepUB, sphere_hitUB_some, h]
      have h2 : hitStep ray t_min (o, c) (Sphere.hit sp) = (some r, r.t) := by
        simp only [hitStep, h]
      rw [h1, h2]
      exact ih (some r) r.t

/-- With a finite initial upper bound the spec-side scene intersection
coincides with the source's `HittableList::hit` over the members'
`Sphere::hit` functions. -/
theorem hitUB_eq_hit (spheres : List Sphere) (ray : Ray) (t_min u : ℝ) :
    HittableList.hitUB spheres ray t_min (some u) =
      HittableList.hit (spheres.map Sphere.hit) ray t_min u := by
  rw [hitUB_eq_foldl, hittableList_hit_eq_foldl]
  exact (foldUB_rel ray t_min spheres none u).1

theorem ray_colour_eq_spec_aux :
    ∀ (n : ℕ) (depth : ℤ), depth.toNat ≤ n →
      ∀ (spheres : List Sphere) (rnd : ℕ → RandSample) (ray : Ray),
        ray_colour (HittableList.hit (spheres.map Sphere.hit)) rnd ray depth =
          specRayColour spheres (some infinite) rnd ray depth := by
  intro n
  induction n with
  | zero =>
    intro depth hd spheres rnd ray
    have h0 : depth ≤ 0 := by omega
    rw [ray_colour, dif_pos h0, specRayColour, dif_pos h0]
  | succ n ih =>
    intro depth hd spheres rnd ray
    by_cases h0 : depth ≤ 0
    · rw [ray_colour, dif_pos h0, specRayColour, dif_pos h0]
    · rw [ray_colour, dif_neg h0, specRayColour, dif_neg h0, hitUB_eq_hit]
      rcases hw : HittableList.hit (spheres.map Sphere.hit) ray 0.001 infinite with _ | rec
      · rfl
      · dsimp only
        rcases hs : rec.material.scatter (rnd 0) ray rec with _ | p
        · rfl
        · rcases p with ⟨attenuation, scattered⟩
          dsimp only
          have hrec : (depth - 1).toNat ≤ n := by omega
          rw [ih (depth - 1) hrec spheres (fun n => rnd (n + 1)) scattered]

/-- C1 amended.  For every scene (a `HittableList` of spheres), ray,
depth and stream of random draws, `ray_colour` equals the reference
recursive definition in which the scene intersection uses
`t_min = 0.001` and `t_max = f64::MAX` (the value the source's
`infinite()` actually returns) rather than `t_max = +∞`. -/
theorem ray_colour_eq_spec_max (spheres : List Sphere) (rnd : ℕ → RandSample)
    (ray : Ray) (depth : ℤ) :
    ray_colour (HittableList.hit (spheres.map Sphere.hit)) rnd ray depth =
      specRayColour spheres (some infinite) rnd ray depth :=
  ray_colour_eq_spec_aux depth.toNat depth (le_refl _) spheres rnd ray

/-- A sphere whose intersection parameter exceeds `f64::MAX`: unit
sphere centered on the axis of `farRay` at distance `infinite + 2`. -/
def farSphere : Sphere :=
  ⟨⟨0, 0, -(infinite + 2)⟩, 1, .lambertian ⟨0, 0, 0⟩⟩

/-- The ray from the origin toward `farSphere`. -/
def farRay : Ray :=
  ⟨⟨0, 0, 0⟩, ⟨0, 0, -1⟩⟩

/-- A constant stream of random draws. -/
def rndZero : ℕ → RandSample :=
  fun _ => ⟨⟨0, 0, 0⟩, ⟨0, 0, 0⟩, 0⟩

theorem farSphere_disc : hitDiscriminant farSphere farRay = 1 := by
  simp only [hitDiscriminant, hitHalfB, hitA, hitC, farSphere, farRay, dot,
    Vec3.sub_def, Vec3.length_squared]
  ring

theorem farSphere_halfB : hitHalfB farSphere farRay = -(infinite + 2) := by
  simp only [hitHalfB, farSphere, farRay, dot, Vec3.sub_def]
  ring

theorem farSphere_hitA : hitA farRay = 1 := by
  simp only [hitA, farRay, Vec3.length_squared]
  norm_num

theorem farSphere_root1 : sphereRoot1 farSphere farRay = infinite + 1 := by
  rw [sphereRoot1, farSphere_disc, farSphere_halfB, farSphere_hitA, Real.sqrt_one]
  ring

theorem farSphere_root2 : sphereRoot2 farSphere farRay = infinite + 3 := by
  rw [sphereRoot2, farSphere_disc, farSphere_halfB, farSphere_hitA, Real.sqrt_one]
  ring

theorem farSphere_hit_none : Sphere.hit farSphere farRay 0.001 infinite = none := by
  rw [sphere_hit_eq, if_pos (by rw [farSphere_disc]; norm_num), if_neg, if_neg]
  · rw [farSphere_root2]
    rintro ⟨h, -⟩
    linarith
  · rw [farSphere_root1]
    rintro ⟨h, -⟩
    linarith

theorem farRay_unit : farRay.dir.get_normalized = ⟨0, 0, -1⟩ := by
  simp only [farRay, Vec3.get_normalized, Vec3.length, Vec3.length_squared, Vec3.div_def]
  rw [show (0 * 0 + 0 * 0 + -1 * -1 : ℝ) = 1 by norm_num, Real.sqrt_one]
  norm_num

/-- Counterexample to C1: for a scene holding one sphere beyond
`t = f64::MAX`, the source's `ray_colour` (which bounds the
intersection by `infinite() = f64::MAX`) returns the background
gradient, while the claim's reference definition (which intersects
with `t_max = +∞`) scatters off the sphere and returns black. -/
theorem ray_colour_infinite_counterexample :
    ray_colour (HittableList.hit ([farSphere].map Sphere.hit)) rndZero farRay 1 ≠
      specRayColour [farSphere] none rndZero farRay 1 := by
  have hworld : HittableList.hit ([farSphere].map Sphere.hit) farRay 0.001 infinite
      = none := by
    rw [hittableList_hit_eq_foldl]
    simp only [List.map_cons, List.map_nil, List.foldl_cons, List.foldl_nil, hitStep,
      farSphere_hit_none]
  have hL : ray_colour (HittableList.hit ([farSphere].map Sphere.hit)) rndZero farRay 1
      = ⟨3 / 4, 17 / 20, 1⟩ := by
    rw [ray_colour, dif_neg (by omega : ¬ (1 : ℤ) ≤ 0), hworld]
    rw [farRay_unit]
    simp only [Vec3.add_def, Vec3.real_mul_def, Vec3.mk.injEq]
    norm_num
  have hUB : Sphere.hitUB farSphere farRay 0.001 none =
      some (sphereRecord farSphere farRay ((-hitHalfB farSphere farRay -
        Real.sqrt (hitDiscriminant farSphere farRay)) / hitA farRay)) := by
    rw [Sphere.hitUB]
    rw [if_pos (by rw [farSphere_disc]; norm_num)]
    rw [if_pos]
    have h1 : (-hitHalfB farSphere farRay - Real.sqrt (hitDiscriminant farSphere farRay))
        / hitA farRay = infinite + 1 := farSphere_root1
    rw [h1]
    have := infinite_pos
    norm_num
    linarith
  have hspec : specRayColour [farSphere] none rndZero farRay 1 = ⟨0, 0, 0⟩ := by
    rw [specRayColour, dif_neg (by omega : ¬ (1 : ℤ) ≤ 0)]
    rw [hitUB_eq_foldl]
    simp only [List.foldl_cons, List.foldl_nil, hitStepUB, hUB]
    have hmat : (sphereRecord farSphere farRay ((-hitHalfB farSphere farRay -
        Real.sqrt (hitDiscriminant farSphere farRay)) / hitA farRay)).material =
        Material.lambertian ⟨0, 0, 0⟩ := rfl
    rw [hmat]
    dsimp only [Material.scatter, Lambertian.scatter]
    simp only [Vec3.mul_def, Vec3.mk.injEq, zero_mul]
  rw [hL, hspec]
  simp only [ne_eq, Vec3.mk.injEq]
  norm_num

end RTW

end
